import Mathlib

/-!
Verification of the `eigen_wrapper` C API (src/dependencies/lib/eigen_wrapper.cpp).

The C code works on `float`; we embed it over the real numbers, the standard
idealization for real-time graphics math.  Each C function becomes a Lean
definition of the same name; Eigen library calls (`norm`, `normalized`, `dot`,
`cross`, operator arithmetic, matrix products) are modelled by the formulas
Eigen computes.  Division by zero follows Lean's junk-value convention
(`x / 0 = 0`) where the float code would produce NaN/Inf; the claims that are
genuinely about IEEE-754 NaN behaviour are treated separately.

Matrix layout: `Mat4f.data : Fin 16 → ℝ` is the flat column-major array of the
C struct, so the entry at row `r`, column `c` lives at index `4 * c + r`
(definition `ix`), exactly as in the loops
`matrix(j, i) = mat.data[i * 4 + j]` of the C source.
-/

namespace EigenWrapper

noncomputable section

/-- Model of the C struct `Vec2f { float x, y; }`. -/
@[ext] structure Vec2f where
  x : ℝ
  y : ℝ

/-- Model of the C struct `Vec3f { float x, y, z; }`. -/
@[ext] structure Vec3f where
  x : ℝ
  y : ℝ
  z : ℝ

/-- Model of the C struct `Vec4f { float x, y, z, w; }`. -/
@[ext] structure Vec4f where
  x : ℝ
  y : ℝ
  z : ℝ
  w : ℝ

/-- Model of the C struct `Mat4f { float data[16]; }` (column-major). -/
@[ext] structure Mat4f where
  data : Fin 16 → ℝ

/-- `vec2fSubtract` : componentwise difference (Eigen `ea - eb`). -/
def vec2fSubtract (a b : Vec2f) : Vec2f :=
  ⟨a.x - b.x, a.y - b.y⟩

/-- `vec2fLength` : Eigen `norm()` = sqrt of the sum of squared components. -/
def vec2fLength (v : Vec2f) : ℝ :=
  Real.sqrt (v.x * v.x + v.y * v.y)

/-- `vec2fNormalize` : Eigen `normalized()` = the vector divided by its norm. -/
def vec2fNormalize (v : Vec2f) : Vec2f :=
  ⟨v.x / vec2fLength v, v.y / vec2fLength v⟩

/-- `vec2fLengthSquared` : Eigen `squaredNorm()`. -/
def vec2fLengthSquared (v : Vec2f) : ℝ :=
  v.x * v.x + v.y * v.y

/-- `vec2fDistance` : the C body is literally `vec2fLength(vec2fSubtract(a, b))`. -/
def vec2fDistance (a b : Vec2f) : ℝ :=
  vec2fLength (vec2fSubtract a b)

/-- `vec3fAdd` : componentwise sum. -/
def vec3fAdd (a b : Vec3f) : Vec3f :=
  ⟨a.x + b.x, a.y + b.y, a.z + b.z⟩

/-- `vec3fSubtract` : componentwise difference. -/
def vec3fSubtract (a b : Vec3f) : Vec3f :=
  ⟨a.x - b.x, a.y - b.y, a.z - b.z⟩

/-- `vec3fScale` : Eigen `ev * scalar`. -/
def vec3fScale (v : Vec3f) (scalar : ℝ) : Vec3f :=
  ⟨v.x * scalar, v.y * scalar, v.z * scalar⟩

/-- `vec3fCross` : Eigen `cross`. -/
def vec3fCross (a b : Vec3f) : Vec3f :=
  ⟨a.y * b.z - a.z * b.y, a.z * b.x - a.x * b.z, a.x * b.y - a.y * b.x⟩

/-- `vec3fDot` : Eigen `dot`. -/
def vec3fDot (a b : Vec3f) : ℝ :=
  a.x * b.x + a.y * b.y + a.z * b.z

/-- `vec3fLength` : Eigen `norm()`. -/
def vec3fLength (v : Vec3f) : ℝ :=
  Real.sqrt (v.x * v.x + v.y * v.y + v.z * v.z)

/-- `vec3fNormalize` : Eigen `normalized()`. -/
def vec3fNormalize (v : Vec3f) : Vec3f :=
  ⟨v.x / vec3fLength v, v.y / vec3fLength v, v.z / vec3fLength v⟩

/-- `vec3fLengthSquared` : Eigen `squaredNorm()`. -/
def vec3fLengthSquared (v : Vec3f) : ℝ :=
  v.x * v.x + v.y * v.y + v.z * v.z

/-- `vec3fDistance` : the C body is literally `vec3fLength(vec3fSubtract(a, b))`. -/
def vec3fDistance (a b : Vec3f) : ℝ :=
  vec3fLength (vec3fSubtract a b)

/-- `vec3fSlerp`, following the C body line by line: magnitudes, normalized
inputs, clamped dot product, the near-parallel linear-interpolation branch
(`dotp > 0.9995`), otherwise the slerp formula on the unit sphere followed by
linear interpolation of the magnitude. -/
def vec3fSlerp (a b : Vec3f) (t : ℝ) : Vec3f :=
  let mag_a := vec3fLength a
  let mag_b := vec3fLength b
  let va_norm := vec3fNormalize a
  let vb_norm := vec3fNormalize b
  let dotp := min (max (vec3fDot va_norm vb_norm) (-1)) 1
  if dotp > 0.9995 then
    vec3fAdd a (vec3fScale (vec3fSubtract b a) t)
  else
    let theta := Real.arccos dotp * t
    let relative := vec3fNormalize (vec3fSubtract vb_norm (vec3fScale va_norm dotp))
    let result := vec3fAdd (vec3fScale va_norm (Real.cos theta))
                           (vec3fScale relative (Real.sin theta))
    let mag := mag_a + t * (mag_b - mag_a)
    vec3fScale (vec3fNormalize result) mag

/-- `vec4fAdd` : componentwise sum. -/
def vec4fAdd (a b : Vec4f) : Vec4f :=
  ⟨a.x + b.x, a.y + b.y, a.z + b.z, a.w + b.w⟩

/-- `vec4fSubtract` : componentwise difference. -/
def vec4fSubtract (a b : Vec4f) : Vec4f :=
  ⟨a.x - b.x, a.y - b.y, a.z - b.z, a.w - b.w⟩

/-- `vec4fScale` : Eigen `ev * scalar`. -/
def vec4fScale (v : Vec4f) (scalar : ℝ) : Vec4f :=
  ⟨v.x * scalar, v.y * scalar, v.z * scalar, v.w * scalar⟩

/-- `vec4fDot` : Eigen `dot`. -/
def vec4fDot (a b : Vec4f) : ℝ :=
  a.x * b.x + a.y * b.y + a.z * b.z + a.w * b.w

/-- `vec4fLength` : Eigen `norm()`. -/
def vec4fLength (v : Vec4f) : ℝ :=
  Real.sqrt (v.x * v.x + v.y * v.y + v.z * v.z + v.w * v.w)

/-- `vec4fNormalize` : Eigen `normalized()`. -/
def vec4fNormalize (v : Vec4f) : Vec4f :=
  ⟨v.x / vec4fLength v, v.y / vec4fLength v, v.z / vec4fLength v,
   v.w / vec4fLength v⟩

/-- `vec4fLengthSquared` : Eigen `squaredNorm()`. -/
def vec4fLengthSquared (v : Vec4f) : ℝ :=
  v.x * v.x + v.y * v.y + v.z * v.z + v.w * v.w

/-- Flat column-major index of row `r`, column `c`: `data[c * 4 + r]`. -/
def ix (r c : Fin 4) : Fin 16 :=
  ⟨4 * c.val + r.val, by have hr := r.isLt; have hc := c.isLt; omega⟩

/-- Row of a flat column-major index: `i % 4`. -/
def row (i : Fin 16) : Fin 4 :=
  ⟨i.val % 4, by omega⟩

/-- Column of a flat column-major index: `i / 4`. -/
def col (i : Fin 16) : Fin 4 :=
  ⟨i.val / 4, by have hi := i.isLt; omega⟩

/-- `mat4fIdentity` : the column-major flat copy of `Eigen::Matrix4f::Identity()`,
ones at flat indices 0, 5, 10, 15. -/
def mat4fIdentity : Mat4f :=
  ⟨fun i => if i.val = 0 ∨ i.val = 5 ∨ i.val = 10 ∨ i.val = 15 then 1 else 0⟩

/-- `mat4fMultiply` : both arguments are mapped column-major into Eigen
matrices, multiplied (`result(r, c) = Σ k, A(r, k) * B(k, c)`), and the result
is copied back column-major. -/
def mat4fMultiply (a b : Mat4f) : Mat4f :=
  ⟨fun i => ∑ k : Fin 4, a.data (ix (row i) k) * b.data (ix k (col i))⟩

/-- `mat4fOrtho`, following the C body: an Eigen matrix `R` initialized to the
identity, six assignments `R(0,0) = 2/width`, `R(1,1) = 2/height`,
`R(2,2) = -2/depth`, `R(3,0) = -(right+left)/width`, `R(3,1) = -(top+bottom)/height`,
`R(3,2) = -(far+near)/depth` (note: Eigen indexing is `(row, column)`), then the
copy `mat.data[i*4 + j] = R(j, i)`, i.e. `data k = R (k % 4) (k / 4)`. -/
def mat4fOrtho (left right bottom top near far : ℝ) : Mat4f :=
  let width := right - left
  let height := top - bottom
  let depth := far - near
  let R : Fin 4 → Fin 4 → ℝ := fun r c =>
    if r = 0 ∧ c = 0 then 2 / width
    else if r = 1 ∧ c = 1 then 2 / height
    else if r = 2 ∧ c = 2 then -2 / depth
    else if r = 3 ∧ c = 0 then -(right + left) / width
    else if r = 3 ∧ c = 1 then -(top + bottom) / height
    else if r = 3 ∧ c = 2 then -(far + near) / depth
    else if r = c then 1 else 0
  ⟨fun i => R (row i) (col i)⟩

/-- Row `r` of the Eigen product `matrix * (p.x, p.y, p.z, 1)` inside
`mat4fTransformPoint`, where `matrix(j, i) = mat.data[i*4 + j]`. -/
def mat4fHomRow (mat : Mat4f) (p : Vec3f) (r : Fin 4) : ℝ :=
  mat.data (ix r 0) * p.x + mat.data (ix r 1) * p.y +
    mat.data (ix r 2) * p.z + mat.data (ix r 3) * 1

/-- `mat4fTransformPoint` : homogeneous product with `(p, 1)`, then the
perspective division guarded by `result(3) != 1.0f && result(3) != 0.0f`. -/
def mat4fTransformPoint (mat : Mat4f) (point : Vec3f) : Vec3f :=
  let w := mat4fHomRow mat point 3
  if w ≠ 1 ∧ w ≠ 0 then
    ⟨mat4fHomRow mat point 0 / w, mat4fHomRow mat point 1 / w,
     mat4fHomRow mat point 2 / w⟩
  else
    ⟨mat4fHomRow mat point 0, mat4fHomRow mat point 1, mat4fHomRow mat point 2⟩

/-- Row `r` of the Eigen product `matrix * (d.x, d.y, d.z, 0)` inside
`mat4fTransformDirection`. -/
def mat4fDirRow (mat : Mat4f) (d : Vec3f) (r : Fin 4) : ℝ :=
  mat.data (ix r 0) * d.x + mat.data (ix r 1) * d.y +
    mat.data (ix r 2) * d.z + mat.data (ix r 3) * 0

/-- `mat4fTransformDirection` : homogeneous product with `(d, 0)`, no division. -/
def mat4fTransformDirection (mat : Mat4f) (dir : Vec3f) : Vec3f :=
  ⟨mat4fDirRow mat dir 0, mat4fDirRow mat dir 1, mat4fDirRow mat dir 2⟩

/-- Angle between two vectors (the notion used by the spec's slerp property):
`arccos` of the cosine obtained from the dot product and the lengths. -/
def vec3fAngle (a b : Vec3f) : ℝ :=
  Real.arccos (vec3fDot a b / (vec3fLength a * vec3fLength b))

end

/-! ### Index evaluation lemmas -/

theorem ix_val (r c : Fin 4) : (ix r c).val = 4 * c.val + r.val := rfl

@[simp] theorem ix_0_0 : ix 0 0 = (0 : Fin 16) := rfl

@[simp] theorem ix_1_0 : ix 1 0 = (1 : Fin 16) := rfl

@[simp] theorem ix_2_0 : ix 2 0 = (2 : Fin 16) := rfl

@[simp] theorem ix_3_0 : ix 3 0 = (3 : Fin 16) := rfl

@[simp] theorem ix_0_1 : ix 0 1 = (4 : Fin 16) := rfl

@[simp] theorem ix_1_1 : ix 1 1 = (5 : Fin 16) := rfl

@[simp] theorem ix_2_1 : ix 2 1 = (6 : Fin 16) := rfl

@[simp] theorem ix_3_1 : ix 3 1 = (7 : Fin 16) := rfl

@[simp] theorem ix_0_2 : ix 0 2 = (8 : Fin 16) := rfl

@[simp] theorem ix_1_2 : ix 1 2 = (9 : Fin 16) := rfl

@[simp] theorem ix_2_2 : ix 2 2 = (10 : Fin 16) := rfl

@[simp] theorem ix_3_2 : ix 3 2 = (11 : Fin 16) := rfl

@[simp] theorem ix_0_3 : ix 0 3 = (12 : Fin 16) := rfl

@[simp] theorem ix_1_3 : ix 1 3 = (13 : Fin 16) := rfl

@[simp] theorem ix_2_3 : ix 2 3 = (14 : Fin 16) := rfl

@[simp] theorem ix_3_3 : ix 3 3 = (15 : Fin 16) := rfl

@[simp] theorem fin16_val_0 : ((0 : Fin 16) : ℕ) = 0 := rfl

@[simp] theorem fin16_val_1 : ((1 : Fin 16) : ℕ) = 1 := rfl

@[simp] theorem fin16_val_2 : ((2 : Fin 16) : ℕ) = 2 := rfl

@[simp] theorem fin16_val_3 : ((3 : Fin 16) : ℕ) = 3 := rfl

@[simp] theorem fin16_val_4 : ((4 : Fin 16) : ℕ) = 4 := rfl

@[simp] theorem fin16_val_5 : ((5 : Fin 16) : ℕ) = 5 := rfl

@[simp] theorem fin16_val_6 : ((6 : Fin 16) : ℕ) = 6 := rfl

@[simp] theorem fin16_val_7 : ((7 : Fin 16) : ℕ) = 7 := rfl

@[simp] theorem fin16_val_8 : ((8 : Fin 16) : ℕ) = 8 := rfl

@[simp] theorem fin16_val_9 : ((9 : Fin 16) : ℕ) = 9 := rfl

@[simp] theorem fin16_val_10 : ((10 : Fin 16) : ℕ) = 10 := rfl

@[simp] theorem fin16_val_11 : ((11 : Fin 16) : ℕ) = 11 := rfl

@[simp] theorem fin16_val_12 : ((12 : Fin 16) : ℕ) = 12 := rfl

@[simp] theorem fin16_val_13 : ((13 : Fin 16) : ℕ) = 13 := rfl

@[simp] theorem fin16_val_14 : ((14 : Fin 16) : ℕ) = 14 := rfl

@[simp] theorem fin16_val_15 : ((15 : Fin 16) : ℕ) = 15 := rfl

theorem fin4_val_zero : ((0 : Fin 4) : ℕ) = 0 := rfl

theorem fin4_val_one : ((1 : Fin 4) : ℕ) = 1 := rfl

theorem fin4_val_two : ((2 : Fin 4) : ℕ) = 2 := rfl

theorem fin4_val_three : ((3 : Fin 4) : ℕ) = 3 := rfl

/-- C3: multiplying any matrix by the identity on the left returns the same
matrix, entry for entry. -/
theorem mat4fMultiply_identity_left (m : Mat4f) :
    mat4fMultiply mat4fIdentity m = m := by
  ext i
  fin_cases i <;>
    norm_num [mat4fMultiply, mat4fIdentity, ix, row, col, Fin.sum_univ_four,
      fin4_val_zero, fin4_val_one, fin4_val_two, fin4_val_three]

/-- C1 (refuting evaluation): at `left = 0, right = 2, bottom = 0, top = 2,
near = 0, far = 2` the claimed standard orthographic matrix has translation
`-1` at flat indices 12, 13, 14 and `0` at indices 3, 7, 11; the code instead
leaves 12, 13, 14 at `0` and writes the translation into the bottom row at
flat indices 3, 7, 11. -/
theorem mat4fOrtho_translation_misplaced :
    (mat4fOrtho 0 2 0 2 0 2).data 12 = 0 ∧
    (mat4fOrtho 0 2 0 2 0 2).data 13 = 0 ∧
    (mat4fOrtho 0 2 0 2 0 2).data 14 = 0 ∧
    (mat4fOrtho 0 2 0 2 0 2).data 3 = -1 ∧
    (mat4fOrtho 0 2 0 2 0 2).data 7 = -1 ∧
    (mat4fOrtho 0 2 0 2 0 2).data 11 = -1 := by
  norm_num [mat4fOrtho, row, col, Fin.ext_iff,
    fin4_val_zero, fin4_val_one, fin4_val_two, fin4_val_three]

/-- C2: `mat4fTransformPoint` computes the column-major homogeneous product
`(x, y, z, w) = M * (p, 1)` and divides by `w` exactly when `w` is neither 1
nor 0, returning the undivided components otherwise. -/
theorem mat4fTransformPoint_eq_spec (mat : Mat4f) (p : Vec3f) :
    mat4fTransformPoint mat p =
      (let x := mat.data 0 * p.x + mat.data 4 * p.y + mat.data 8 * p.z + mat.data 12
       let y := mat.data 1 * p.x + mat.data 5 * p.y + mat.data 9 * p.z + mat.data 13
       let z := mat.data 2 * p.x + mat.data 6 * p.y + mat.data 10 * p.z + mat.data 14
       let w := mat.data 3 * p.x + mat.data 7 * p.y + mat.data 11 * p.z + mat.data 15
       if w ≠ 1 ∧ w ≠ 0 then Vec3f.mk (x / w) (y / w) (z / w)
       else Vec3f.mk x y z) := by
  simp only [mat4fTransformPoint, mat4fHomRow, mul_one,
    ix_0_0, ix_1_0, ix_2_0, ix_3_0, ix_0_1, ix_1_1, ix_2_1, ix_3_1,
    ix_0_2, ix_1_2, ix_2_2, ix_3_2, ix_0_3, ix_1_3, ix_2_3, ix_3_3]

/-- C9: `mat4fTransformDirection` applies exactly the upper-left 3x3 linear
part of the column-major matrix to the direction, and consequently two
matrices agreeing on flat indices 0..11 (hence differing at most at
12, 13, 14, 15) transform every direction identically. -/
theorem mat4fTransformDirection_linear_part :
    (∀ (mat : Mat4f) (d : Vec3f),
        mat4fTransformDirection mat d =
          Vec3f.mk (mat.data 0 * d.x + mat.data 4 * d.y + mat.data 8 * d.z)
                   (mat.data 1 * d.x + mat.data 5 * d.y + mat.data 9 * d.z)
                   (mat.data 2 * d.x + mat.data 6 * d.y + mat.data 10 * d.z)) ∧
    (∀ (m m₂ : Mat4f) (d : Vec3f),
        (∀ i : Fin 16, i.val < 12 → m.data i = m₂.data i) →
        mat4fTransformDirection m d = mat4fTransformDirection m₂ d) := by
  have key : ∀ (mat : Mat4f) (d : Vec3f),
      mat4fTransformDirection mat d =
        Vec3f.mk (mat.data 0 * d.x + mat.data 4 * d.y + mat.data 8 * d.z)
                 (mat.data 1 * d.x + mat.data 5 * d.y + mat.data 9 * d.z)
                 (mat.data 2 * d.x + mat.data 6 * d.y + mat.data 10 * d.z) := by
    intro mat d
    simp only [mat4fTransformDirection, mat4fDirRow, mul_zero, add_zero,
      ix_0_0, ix_1_0, ix_2_0, ix_0_1, ix_1_1, ix_2_1, ix_0_2, ix_1_2, ix_2_2]
  refine ⟨key, fun m m₂ d h => ?_⟩
  rw [key, key, h 0 (by decide), h 1 (by decide), h 2 (by decide),
    h 4 (by decide), h 5 (by decide), h 6 (by decide),
    h 8 (by decide), h 9 (by decide), h 10 (by decide)]

/-- C9 witness: two concrete matrices differing only at flat index 12
transform the concrete direction `(1, 2, 3)` identically. -/
theorem mat4fTransformDirection_linear_part_witness :
    mat4fTransformDirection ⟨fun i => if i.val = 12 then 7 else 1⟩ ⟨1, 2, 3⟩ =
      mat4fTransformDirection ⟨fun i => if i.val = 12 then 9 else 1⟩ ⟨1, 2, 3⟩ :=
  mat4fTransformDirection_linear_part.2
    ⟨fun i => if i.val = 12 then 7 else 1⟩
    ⟨fun i => if i.val = 12 then 9 else 1⟩
    ⟨1, 2, 3⟩
    (fun i hi => by
      have : i.val ≠ 12 := by omega
      simp [this])

/-- C10: when the homogeneous `w` component of `M * (p, 1)` is exactly 0, the
division branch of `mat4fTransformPoint` is not taken and the raw `(x, y, z)`
components are returned, so the division never executes with divisor 0. -/
theorem mat4fTransformPoint_w_zero (mat : Mat4f) (p : Vec3f)
    (h : mat4fHomRow mat p 3 = 0) :
    mat4fTransformPoint mat p =
      Vec3f.mk (mat4fHomRow mat p 0) (mat4fHomRow mat p 1) (mat4fHomRow mat p 2) := by
  simp [mat4fTransformPoint, h]

/-- C10 witness: a concrete matrix whose bottom row is all zero gives
homogeneous `w = 0`, and the transform returns the raw product components. -/
theorem mat4fTransformPoint_w_zero_witness :
    mat4fHomRow ⟨fun i => if i.val = 0 ∨ i.val = 5 ∨ i.val = 10 then 1 else 0⟩
        ⟨1, 2, 3⟩ 3 = 0 ∧
    mat4fTransformPoint ⟨fun i => if i.val = 0 ∨ i.val = 5 ∨ i.val = 10 then 1 else 0⟩
        ⟨1, 2, 3⟩ = Vec3f.mk 1 2 3 := by
  have h : mat4fHomRow ⟨fun i => if i.val = 0 ∨ i.val = 5 ∨ i.val = 10 then 1 else 0⟩
      (⟨1, 2, 3⟩ : Vec3f) 3 = 0 := by
    norm_num [mat4fHomRow, ix, fin4_val_zero, fin4_val_one, fin4_val_two, fin4_val_three]
  refine ⟨h, ?_⟩
  rw [mat4fTransformPoint_w_zero _ _ h]
  norm_num [mat4fHomRow, ix, fin4_val_zero, fin4_val_one, fin4_val_two, fin4_val_three]

/-- C7: `vec2fDistance` and `vec3fDistance` are, definitionally as in the C
source, length composed with subtraction. -/
theorem distance_eq_length_subtract :
    (∀ a b : Vec2f, vec2fDistance a b = vec2fLength (vec2fSubtract a b)) ∧
    (∀ a b : Vec3f, vec3fDistance a b = vec3fLength (vec3fSubtract a b)) :=
  ⟨fun _ _ => rfl, fun _ _ => rfl⟩

/-! ### Length and normalization lemmas -/

theorem vec2fLength_normalize (v : Vec2f) (h : 0 < vec2fLength v) :
    vec2fLength (vec2fNormalize v) = 1 := by
  have hd : vec2fLength v * vec2fLength v = v.x * v.x + v.y * v.y :=
    Real.mul_self_sqrt (by nlinarith [mul_self_nonneg v.x, mul_self_nonneg v.y])
  have hn : vec2fLength v ≠ 0 := ne_of_gt h
  have e : (v.x / vec2fLength v) * (v.x / vec2fLength v) +
      (v.y / vec2fLength v) * (v.y / vec2fLength v) = 1 := by
    field_simp
    linarith [hd]
  show Real.sqrt _ = 1
  rw [show (vec2fNormalize v).x = v.x / vec2fLength v from rfl,
      show (vec2fNormalize v).y = v.y / vec2fLength v from rfl,
      e, Real.sqrt_one]

theorem vec3fLength_normalize (v : Vec3f) (h : 0 < vec3fLength v) :
    vec3fLength (vec3fNormalize v) = 1 := by
  have hd : vec3fLength v * vec3fLength v = v.x * v.x + v.y * v.y + v.z * v.z :=
    Real.mul_self_sqrt
      (by nlinarith [mul_self_nonneg v.x, mul_self_nonneg v.y, mul_self_nonneg v.z])
  have hn : vec3fLength v ≠ 0 := ne_of_gt h
  have e : (v.x / vec3fLength v) * (v.x / vec3fLength v) +
      (v.y / vec3fLength v) * (v.y / vec3fLength v) +
      (v.z / vec3fLength v) * (v.z / vec3fLength v) = 1 := by
    field_simp
    linarith [hd]
  show Real.sqrt _ = 1
  rw [show (vec3fNormalize v).x = v.x / vec3fLength v from rfl,
      show (vec3fNormalize v).y = v.y / vec3fLength v from rfl,
      show (vec3fNormalize v).z = v.z / vec3fLength v from rfl,
      e, Real.sqrt_one]

theorem vec4fLength_normalize (v : Vec4f) (h : 0 < vec4fLength v) :
    vec4fLength (vec4fNormalize v) = 1 := by
  have hd : vec4fLength v * vec4fLength v =
      v.x * v.x + v.y * v.y + v.z * v.z + v.w * v.w :=
    Real.mul_self_sqrt
      (by nlinarith [mul_self_nonneg v.x, mul_self_nonneg v.y, mul_self_nonneg v.z,
        mul_self_nonneg v.w])
  have hn : vec4fLength v ≠ 0 := ne_of_gt h
  have e : (v.x / vec4fLength v) * (v.x / vec4fLength v) +
      (v.y / vec4fLength v) * (v.y / vec4fLength v) +
      (v.z / vec4fLength v) * (v.z / vec4fLength v) +
      (v.w / vec4fLength v) * (v.w / vec4fLength v) = 1 := by
    field_simp
    linarith [hd]
  show Real.sqrt _ = 1
  rw [show (vec4fNormalize v).x = v.x / vec4fLength v from rfl,
      show (vec4fNormalize v).y = v.y / vec4fLength v from rfl,
      show (vec4fNormalize v).z = v.z / vec4fLength v from rfl,
      show (vec4fNormalize v).w = v.w / vec4fLength v from rfl,
      e, Real.sqrt_one]

/-- C6: for any vector of positive (finite) length the normalized vector has
length exactly 1 — hence in particular approximately 1 — for `Vec2f`, `Vec3f`
and `Vec4f` alike. -/
theorem length_normalize_eq_one (u : Vec2f) (v : Vec3f) (w : Vec4f)
    (hu : 0 < vec2fLength u) (hv : 0 < vec3fLength v) (hw : 0 < vec4fLength w) :
    vec2fLength (vec2fNormalize u) = 1 ∧
    vec3fLength (vec3fNormalize v) = 1 ∧
    vec4fLength (vec4fNormalize w) = 1 :=
  ⟨vec2fLength_normalize u hu, vec3fLength_normalize v hv,
   vec4fLength_normalize w hw⟩

/-- C6 witness: the concrete vectors `(3, 4)`, `(0, 0, 1)` and `(0, 0, 0, 1)`
have positive length and normalize to vectors of length exactly 1. -/
theorem length_normalize_eq_one_witness :
    vec2fLength (vec2fNormalize ⟨3, 4⟩) = 1 ∧
    vec3fLength (vec3fNormalize ⟨0, 0, 1⟩) = 1 ∧
    vec4fLength (vec4fNormalize ⟨0, 0, 0, 1⟩) = 1 :=
  length_normalize_eq_one ⟨3, 4⟩ ⟨0, 0, 1⟩ ⟨0, 0, 0, 1⟩
    (Real.sqrt_pos.mpr (by norm_num))
    (Real.sqrt_pos.mpr (by norm_num))
    (Real.sqrt_pos.mpr (by norm_num))

/-! ### Dot-product algebra for Vec3f -/

theorem vec3fDot_self_nonneg (v : Vec3f) : 0 ≤ vec3fDot v v := by
  unfold vec3fDot
  nlinarith [mul_self_nonneg v.x, mul_self_nonneg v.y, mul_self_nonneg v.z]

theorem vec3fLength_eq_sqrt_dot (v : Vec3f) :
    vec3fLength v = Real.sqrt (vec3fDot v v) := rfl

theorem vec3fLength_mul_self (v : Vec3f) :
    vec3fLength v * vec3fLength v = vec3fDot v v :=
  Real.mul_self_sqrt (vec3fDot_self_nonneg v)

theorem vec3fLength_nonneg (v : Vec3f) : 0 ≤ vec3fLength v :=
  Real.sqrt_nonneg _

theorem vec3fDot_comm (u v : Vec3f) : vec3fDot u v = vec3fDot v u := by
  simp only [vec3fDot]; ring

theorem vec3fDot_add_left (u v w : Vec3f) :
    vec3fDot (vec3fAdd u v) w = vec3fDot u w + vec3fDot v w := by
  simp only [vec3fDot, vec3fAdd]; ring

theorem vec3fDot_add_right (u v w : Vec3f) :
    vec3fDot u (vec3fAdd v w) = vec3fDot u v + vec3fDot u w := by
  simp only [vec3fDot, vec3fAdd]; ring

theorem vec3fDot_sub_left (u v w : Vec3f) :
    vec3fDot (vec3fSubtract u v) w = vec3fDot u w - vec3fDot v w := by
  simp only [vec3fDot, vec3fSubtract]; ring

theorem vec3fDot_sub_right (u v w : Vec3f) :
    vec3fDot u (vec3fSubtract v w) = vec3fDot u v - vec3fDot u w := by
  simp only [vec3fDot, vec3fSubtract]; ring

theorem vec3fDot_scale_left (u v : Vec3f) (s : ℝ) :
    vec3fDot (vec3fScale u s) v = s * vec3fDot u v := by
  simp only [vec3fDot, vec3fScale]; ring

theorem vec3fDot_scale_right (u v : Vec3f) (s : ℝ) :
    vec3fDot u (vec3fScale v s) = s * vec3fDot u v := by
  simp only [vec3fDot, vec3fScale]; ring

theorem vec3fDot_normalize_right (u v : Vec3f) :
    vec3fDot u (vec3fNormalize v) = vec3fDot u v / vec3fLength v := by
  simp only [vec3fDot, vec3fNormalize]; ring

theorem vec3fDot_normalize_normalize (a b : Vec3f) :
    vec3fDot (vec3fNormalize a) (vec3fNormalize b) =
      vec3fDot a b / (vec3fLength a * vec3fLength b) := by
  simp only [vec3fDot, vec3fNormalize]; ring

theorem vec3fDot_self_normalize (v : Vec3f) (h : vec3fLength v ≠ 0) :
    vec3fDot (vec3fNormalize v) (vec3fNormalize v) = 1 := by
  rw [vec3fDot_normalize_normalize, ← vec3fLength_mul_self]
  field_simp

theorem vec3fDot_self_normalize_right (v : Vec3f) (h : vec3fLength v ≠ 0) :
    vec3fDot v (vec3fNormalize v) = vec3fLength v := by
  rw [vec3fDot_normalize_right, ← vec3fLength_mul_self]
  field_simp

theorem vec3fLength_scale (v : Vec3f) (s : ℝ) :
    vec3fLength (vec3fScale v s) = |s| * vec3fLength v := by
  simp only [vec3fLength, vec3fScale]
  rw [show v.x * s * (v.x * s) + v.y * s * (v.y * s) + v.z * s * (v.z * s)
      = s ^ 2 * (v.x * v.x + v.y * v.y + v.z * v.z) by ring,
    Real.sqrt_mul (sq_nonneg s), Real.sqrt_sq_eq_abs]

theorem vec3fNormalize_of_length_one (v : Vec3f) (h : vec3fLength v = 1) :
    vec3fNormalize v = v := by
  ext <;> simp [vec3fNormalize, h]

/-- Angle of `a` against `M * normalize (cos θ * u + sin θ * r)` for a unit
pair `u`, `r` orthogonal to each other, with `u` aligned with `a` and `r`
orthogonal to `a`: it is exactly `θ` (for `θ ∈ [0, π]`, `M > 0`). -/
theorem slerp_core_angle (a u r : Vec3f) (θ M : ℝ)
    (hu : vec3fDot u u = 1) (hr : vec3fDot r r = 1) (hur : vec3fDot u r = 0)
    (hau : vec3fDot a u = vec3fLength a) (har : vec3fDot a r = 0)
    (ha : 0 < vec3fLength a) (hM : 0 < M)
    (hth0 : 0 ≤ θ) (hthpi : θ ≤ Real.pi) :
    vec3fAngle a (vec3fScale (vec3fNormalize
      (vec3fAdd (vec3fScale u (Real.cos θ)) (vec3fScale r (Real.sin θ)))) M)
      = θ := by
  have hru : vec3fDot r u = 0 := by rw [vec3fDot_comm]; exact hur
  set R := vec3fAdd (vec3fScale u (Real.cos θ)) (vec3fScale r (Real.sin θ)) with hR
  have hRR : vec3fDot R R = 1 := by
    rw [hR]
    simp only [vec3fDot_add_left, vec3fDot_add_right, vec3fDot_scale_left,
      vec3fDot_scale_right, hu, hr, hur, hru]
    nlinarith [Real.sin_sq_add_cos_sq θ]
  have hLR : vec3fLength R = 1 := by
    rw [vec3fLength_eq_sqrt_dot, hRR, Real.sqrt_one]
  have hNR : vec3fNormalize R = R := vec3fNormalize_of_length_one R hLR
  have hlen_res : vec3fLength (vec3fScale R M) = M := by
    rw [vec3fLength_scale, hLR, abs_of_pos hM, mul_one]
  have hdot_res : vec3fDot a (vec3fScale R M) = M * (vec3fLength a * Real.cos θ) := by
    rw [vec3fDot_scale_right, hR, vec3fDot_add_right, vec3fDot_scale_right,
      vec3fDot_scale_right, hau, har]
    ring
  unfold vec3fAngle
  rw [hNR, hdot_res, hlen_res,
    show M * (vec3fLength a * Real.cos θ) / (vec3fLength a * M) = Real.cos θ from by
      field_simp
      ring,
    Real.arccos_cos hth0 hthpi]

/-- C4 (amended): for nonzero vectors `a`, `b` whose normalized dot product
lies in `(-1, 0.9995]` — i.e. the code takes its slerp branch and the vectors
are not antiparallel — and any `t ∈ [0, 1]`, `vec3fSlerp` preserves angular
velocity: the angle between `a` and the result is exactly `t` times the angle
between `a` and `b`. -/
theorem vec3fSlerp_angle_preserved (a b : Vec3f) (t : ℝ)
    (ha : 0 < vec3fLength a) (hb : 0 < vec3fLength b)
    (ht0 : 0 ≤ t) (ht1 : t ≤ 1)
    (hlo : -1 < vec3fDot (vec3fNormalize a) (vec3fNormalize b))
    (hhi : vec3fDot (vec3fNormalize a) (vec3fNormalize b) ≤ 0.9995) :
    vec3fAngle a (vec3fSlerp a b t) = t * vec3fAngle a b := by
  have hLa : vec3fLength a ≠ 0 := ne_of_gt ha
  have hLb : vec3fLength b ≠ 0 := ne_of_gt hb
  have hclamp : min (max (vec3fDot (vec3fNormalize a) (vec3fNormalize b)) (-1)) 1
      = vec3fDot (vec3fNormalize a) (vec3fNormalize b) := by
    rw [max_eq_left hlo.le, min_eq_left (hhi.trans (by norm_num))]
  have hbranch :
      ¬ (vec3fDot (vec3fNormalize a) (vec3fNormalize b) > (0.9995 : ℝ)) :=
    not_lt.mpr hhi
  have hslerp : vec3fSlerp a b t = vec3fScale (vec3fNormalize (vec3fAdd
      (vec3fScale (vec3fNormalize a)
        (Real.cos (Real.arccos (vec3fDot (vec3fNormalize a) (vec3fNormalize b)) * t)))
      (vec3fScale (vec3fNormalize (vec3fSubtract (vec3fNormalize b)
          (vec3fScale (vec3fNormalize a)
            (vec3fDot (vec3fNormalize a) (vec3fNormalize b)))))
        (Real.sin (Real.arccos (vec3fDot (vec3fNormalize a) (vec3fNormalize b)) * t)))))
      (vec3fLength a + t * (vec3fLength b - vec3fLength a)) := by
    unfold vec3fSlerp
    simp only [hclamp]
    rw [if_neg hbranch]
  rw [hslerp]
  have hu : vec3fDot (vec3fNormalize a) (vec3fNormalize a) = 1 :=
    vec3fDot_self_normalize a hLa
  set S := vec3fSubtract (vec3fNormalize b)
      (vec3fScale (vec3fNormalize a)
        (vec3fDot (vec3fNormalize a) (vec3fNormalize b))) with hS
  have hSS : vec3fDot S S = 1 -
      vec3fDot (vec3fNormalize a) (vec3fNormalize b) *
        vec3fDot (vec3fNormalize a) (vec3fNormalize b) := by
    rw [hS]
    simp only [vec3fDot_sub_left, vec3fDot_sub_right, vec3fDot_scale_left,
      vec3fDot_scale_right, hu, vec3fDot_self_normalize b hLb,
      vec3fDot_comm (vec3fNormalize b) (vec3fNormalize a)]
    ring
  have hLS : 0 < vec3fLength S := by
    rw [vec3fLength_eq_sqrt_dot]
    apply Real.sqrt_pos.mpr
    rw [hSS]
    nlinarith
  have hrel1 : vec3fDot (vec3fNormalize S) (vec3fNormalize S) = 1 :=
    vec3fDot_self_normalize S (ne_of_gt hLS)
  have hna_rel :
      vec3fDot (vec3fNormalize a) (vec3fNormalize S) = 0 := by
    rw [vec3fDot_normalize_right]
    have hzero : vec3fDot (vec3fNormalize a) S = 0 := by
      rw [hS, vec3fDot_sub_right, vec3fDot_scale_right, hu]
      ring
    rw [hzero, zero_div]
  have hau : vec3fDot a (vec3fNormalize a) = vec3fLength a :=
    vec3fDot_self_normalize_right a hLa
  have har : vec3fDot a (vec3fNormalize S) = 0 := by
    rw [vec3fDot_normalize_right]
    have haS : vec3fDot a S = 0 := by
      rw [hS, vec3fDot_sub_right, vec3fDot_scale_right,
        vec3fDot_normalize_right a b, hau, vec3fDot_normalize_normalize]
      field_simp
      ring
    rw [haS, zero_div]
  have hth0 : 0 ≤ Real.arccos (vec3fDot (vec3fNormalize a) (vec3fNormalize b)) * t :=
    mul_nonneg (Real.arccos_nonneg _) ht0
  have hthpi :
      Real.arccos (vec3fDot (vec3fNormalize a) (vec3fNormalize b)) * t ≤ Real.pi := by
    calc Real.arccos (vec3fDot (vec3fNormalize a) (vec3fNormalize b)) * t
        ≤ Real.arccos (vec3fDot (vec3fNormalize a) (vec3fNormalize b)) * 1 :=
          mul_le_mul_of_nonneg_left ht1 (Real.arccos_nonneg _)
      _ = Real.arccos (vec3fDot (vec3fNormalize a) (vec3fNormalize b)) := mul_one _
      _ ≤ Real.pi := Real.arccos_le_pi _
  have hM : 0 < vec3fLength a + t * (vec3fLength b - vec3fLength a) := by
    rcases eq_or_lt_of_le ht0 with h0 | h0
    · rw [← h0]
      simpa using ha
    · nlinarith [mul_pos h0 hb, mul_nonneg (sub_nonneg.mpr ht1) ha.le]
  rw [slerp_core_angle a (vec3fNormalize a) (vec3fNormalize S)
    (Real.arccos (vec3fDot (vec3fNormalize a) (vec3fNormalize b)) * t)
    (vec3fLength a + t * (vec3fLength b - vec3fLength a))
    hu hrel1 hna_rel hau har ha hM hth0 hthpi]
  have hangle : vec3fAngle a b =
      Real.arccos (vec3fDot (vec3fNormalize a) (vec3fNormalize b)) := by
    unfold vec3fAngle
    rw [vec3fDot_normalize_normalize]
  rw [hangle]
  ring

/-- C4 (counterexample): at the antiparallel pair `a = (1,0,0)`,
`b = (-1,0,0)` (both of length 1) and `t = 1/3`, the angle between `a` and
`vec3fSlerp a b t` is 0 while `t` times the angle between `a` and `b` is
`π/3`: the claimed identity fails for these nonzero inputs. -/
theorem vec3fSlerp_angle_counterexample :
    vec3fLength ⟨1, 0, 0⟩ = 1 ∧ vec3fLength ⟨-1, 0, 0⟩ = 1 ∧
    ((0 : ℝ) ≤ 1/3 ∧ (1/3 : ℝ) ≤ 1) ∧
    vec3fAngle ⟨1, 0, 0⟩ (vec3fSlerp ⟨1, 0, 0⟩ ⟨-1, 0, 0⟩ (1/3)) ≠
      (1/3) * vec3fAngle ⟨1, 0, 0⟩ ⟨-1, 0, 0⟩ := by
  have hla : vec3fLength (⟨1, 0, 0⟩ : Vec3f) = 1 := by
    unfold vec3fLength
    norm_num
  have hlb : vec3fLength (⟨-1, 0, 0⟩ : Vec3f) = 1 := by
    unfold vec3fLength
    norm_num
  have hna : vec3fNormalize ⟨1, 0, 0⟩ = (⟨1, 0, 0⟩ : Vec3f) :=
    vec3fNormalize_of_length_one _ hla
  have hnb : vec3fNormalize ⟨-1, 0, 0⟩ = (⟨-1, 0, 0⟩ : Vec3f) :=
    vec3fNormalize_of_length_one _ hlb
  have hdot : vec3fDot (⟨1, 0, 0⟩ : Vec3f) ⟨-1, 0, 0⟩ = -1 := by
    norm_num [vec3fDot]
  have hcos : Real.cos (Real.arccos (-1 : ℝ) * (1/3)) = 1/2 := by
    rw [Real.arccos_neg_one, show Real.pi * (1/3) = Real.pi/3 by ring,
      Real.cos_pi_div_three]
  have hzlen : vec3fLength (⟨0, 0, 0⟩ : Vec3f) = 0 := by
    unfold vec3fLength
    norm_num
  have hznorm : vec3fNormalize ⟨0, 0, 0⟩ = (⟨0, 0, 0⟩ : Vec3f) := by
    ext <;> simp [vec3fNormalize]
  have hhlen : vec3fLength (⟨1/2, 0, 0⟩ : Vec3f) = 1/2 := by
    unfold vec3fLength
    rw [show ((1:ℝ)/2 * (1/2) + 0 * 0 + 0 * 0) = (1/2)^2 by norm_num,
      Real.sqrt_sq (by norm_num)]
  have hhnorm : vec3fNormalize ⟨1/2, 0, 0⟩ = (⟨1, 0, 0⟩ : Vec3f) := by
    ext <;> simp only [vec3fNormalize, hhlen] <;> norm_num
  have hslerp : vec3fSlerp ⟨1, 0, 0⟩ ⟨-1, 0, 0⟩ (1/3) = (⟨1, 0, 0⟩ : Vec3f) := by
    unfold vec3fSlerp
    simp only [hna, hnb, hdot, hla, hlb]
    rw [show min (max (-1 : ℝ) (-1)) 1 = -1 by norm_num]
    rw [if_neg (by norm_num)]
    rw [show vec3fScale (⟨1, 0, 0⟩ : Vec3f) (-1) = (⟨-1, 0, 0⟩ : Vec3f) from by
        ext <;> norm_num [vec3fScale]]
    rw [show vec3fSubtract (⟨-1, 0, 0⟩ : Vec3f) ⟨-1, 0, 0⟩ = (⟨0, 0, 0⟩ : Vec3f) from by
        ext <;> norm_num [vec3fSubtract]]
    rw [hznorm]
    rw [show vec3fScale (⟨0, 0, 0⟩ : Vec3f) (Real.sin (Real.arccos (-1 : ℝ) * (1/3)))
        = (⟨0, 0, 0⟩ : Vec3f) from by ext <;> norm_num [vec3fScale]]
    rw [show vec3fScale (⟨1, 0, 0⟩ : Vec3f) (Real.cos (Real.arccos (-1 : ℝ) * (1/3)))
        = (⟨1/2, 0, 0⟩ : Vec3f) from by
          rw [hcos]
          ext <;> norm_num [vec3fScale]]
    rw [show vec3fAdd (⟨1/2, 0, 0⟩ : Vec3f) ⟨0, 0, 0⟩ = (⟨1/2, 0, 0⟩ : Vec3f) from by
        ext <;> norm_num [vec3fAdd]]
    rw [hhnorm]
    ext <;> norm_num [vec3fScale]
  refine ⟨hla, hlb, by norm_num, ?_⟩
  rw [hslerp]
  have hlhs : vec3fAngle (⟨1, 0, 0⟩ : Vec3f) ⟨1, 0, 0⟩ = 0 := by
    unfold vec3fAngle
    rw [hla]
    norm_num [vec3fDot, Real.arccos_one]
  have hrhs : (1/3 : ℝ) * vec3fAngle (⟨1, 0, 0⟩ : Vec3f) ⟨-1, 0, 0⟩ = Real.pi / 3 := by
    unfold vec3fAngle
    rw [hla, hlb, hdot]
    norm_num [Real.arccos_neg_one]
    ring
  rw [hlhs, hrhs]
  have : (0 : ℝ) < Real.pi / 3 := by positivity
  exact (ne_of_lt this)

/-- C4 witness: the orthogonal pair `(1,0,0)`, `(0,1,0)` at `t = 1/2`
satisfies every hypothesis of the amended slerp claim, and the angle identity
holds there. -/
theorem vec3fSlerp_angle_preserved_witness :
    vec3fDot (vec3fNormalize ⟨1, 0, 0⟩) (vec3fNormalize ⟨0, 1, 0⟩) = 0 ∧
    vec3fAngle ⟨1, 0, 0⟩ (vec3fSlerp ⟨1, 0, 0⟩ ⟨0, 1, 0⟩ (1/2)) =
      (1/2) * vec3fAngle ⟨1, 0, 0⟩ ⟨0, 1, 0⟩ := by
  have hla : vec3fLength (⟨1, 0, 0⟩ : Vec3f) = 1 := by
    unfold vec3fLength
    norm_num
  have hlb : vec3fLength (⟨0, 1, 0⟩ : Vec3f) = 1 := by
    unfold vec3fLength
    norm_num
  have hdot : vec3fDot (vec3fNormalize ⟨1, 0, 0⟩) (vec3fNormalize ⟨0, 1, 0⟩) = 0 := by
    rw [vec3fNormalize_of_length_one _ hla, vec3fNormalize_of_length_one _ hlb]
    norm_num [vec3fDot]
  refine ⟨hdot, vec3fSlerp_angle_preserved ⟨1, 0, 0⟩ ⟨0, 1, 0⟩ (1/2)
    (by rw [hla]; norm_num) (by rw [hlb]; norm_num)
    (by norm_num) (by norm_num)
    (by rw [hdot]; norm_num) (by rw [hdot]; norm_num)⟩

end EigenWrapper
